import Mathlib

/-!
# Verification of the reminder app's natural-language date resolution and
# reminder lifecycle (shallow embedding of `HelloWorldApp.ts`)

This file embeds the repository's `parseNaturalDate` function, the
`/remind` command's natural-language scheduling path, the `stop`
(cancel) path, the scheduled-job fire handler `reminderProcessor`, and
the persistence effects of every operation, as executable Lean
definitions, and proves the specification's claims about them.

Modelling conventions:
* Strings are `List Char`; `String.prototype.toLowerCase` is
  `List.map Char.toLower`; `String.prototype.includes` is `containsSub`.
* JavaScript `Date` is `DateTime`: a local civil day number (`Int`,
  day 0 being a Thursday, as 1970-01-01 is) plus milliseconds within
  the day. `getTime` is `toMillis`; `new Date(ms)` is `ofMillis`;
  `setHours(h, m, 0, 0)` is `setHours` (with JS's rollover semantics
  for out-of-range hours); `d.setDate(d.getDate() + n)` is `addDays`
  (exact JS semantics for this add-`n`-days idiom); `getDay` is
  `getDay`. Numbers are modelled as exact integers.
* The regexes of `parseNaturalDate` are translated as leftmost-match
  scanners over the character list (`findTimeMatch` for
  `(\d{1,2})(?::(\d{2}))?\s*(am|pm)?`, `findRel` for the
  `in (\d+) <unit>` family).
* Host side effects (scheduling, message posting, persistence writes)
  are reified as `Effect` values returned by the embedded handlers; the
  distinct user-facing message literals of the source are reified as
  distinct `Msg` constructors.
-/

/-- ASCII digit test, the `\d` of the source's regexes. -/
def isDig (c : Char) : Bool :=
  48 ≤ c.toNat && c.toNat ≤ 57

/-- Boolean prefix test on character lists. -/
def isPrefixOfB : List Char → List Char → Bool
  | [], _ => true
  | _ :: _, [] => false
  | a :: as, c :: cs => if a = c then isPrefixOfB as cs else false

/-- `hay.includes(needle)`: substring occurrence, scanning left to right. -/
def containsSub (needle : List Char) : List Char → Bool
  | [] => isPrefixOfB needle []
  | c :: rest => isPrefixOfB needle (c :: rest) || containsSub needle rest

/-- Strip an exact prefix, returning the remainder on success. -/
def stripPre : List Char → List Char → Option (List Char)
  | [], cs => some cs
  | _ :: _, [] => none
  | a :: as, c :: cs => if a = c then stripPre as cs else none

/-- Split off the maximal leading run of ASCII digits (a greedy `\d+`). -/
def takeDigits : List Char → List Char × List Char
  | [] => ([], [])
  | c :: rest =>
    if isDig c then
      let p := takeDigits rest
      (c :: p.1, p.2)
    else ([], c :: rest)

/-- Decimal value of a digit string, as JavaScript `parseInt` computes it
on an all-digit match. -/
def parseDigitsVal (ds : List Char) : Nat :=
  ds.foldl (fun a c => a * 10 + (c.toNat - 48)) 0

/-- The ASCII digit character for `d` (`d ≥ 9` clamps to `'9'`; only
`d < 10` is ever used). -/
def digitChar : Nat → Char
  | 0 => '0' | 1 => '1' | 2 => '2' | 3 => '3' | 4 => '4'
  | 5 => '5' | 6 => '6' | 7 => '7' | 8 => '8' | _ => '9'

/-- Standard decimal rendering of a natural number. -/
def natDigits (n : Nat) : List Char :=
  if _h : n < 10 then [digitChar n]
  else natDigits (n / 10) ++ [digitChar (n % 10)]
decreasing_by exact Nat.div_lt_self (by omega) (by decide)

/-- A JavaScript `Date`, reduced to the timezone-naive local timeline the
source works in: a civil day number and the milliseconds elapsed within
that day.  Day 0 is a Thursday (as 1970-01-01 is). -/
structure DateTime where
  day : Int
  msOfDay : Nat
deriving DecidableEq, Repr

def msPerDay : Nat := 86400000

/-- `Date.prototype.getTime`. -/
def toMillis (d : DateTime) : Int :=
  d.day * (msPerDay : Int) + (d.msOfDay : Int)

/-- `new Date(ms)`. -/
def ofMillis (t : Int) : DateTime :=
  ⟨Int.ediv t (msPerDay : Int), (Int.emod t (msPerDay : Int)).toNat⟩

/-- `d.setHours(h, m, 0, 0)`: seconds and milliseconds cleared, hours
beyond 23 rolling over into following days, exactly as JS normalizes. -/
def setHours (d : DateTime) (h m : Nat) : DateTime :=
  let t : Nat := h * 3600000 + m * 60000
  ⟨d.day + (t / msPerDay : Nat), t % msPerDay⟩

/-- `d.setDate(d.getDate() + n)`: shift by whole days, keeping the
time of day. -/
def addDays (d : DateTime) (n : Int) : DateTime :=
  ⟨d.day + n, d.msOfDay⟩

/-- `Date.prototype.getDay`: 0 = Sunday … 6 = Saturday. -/
def getDay (d : DateTime) : Int :=
  Int.emod (d.day + 4) 7

/-- An `am`/`pm` marker captured by the time-of-day regex. -/
inductive Meridiem where
  | am
  | pm
deriving DecidableEq, Repr

/-- The capture groups of `(\d{1,2})(?::(\d{2}))?\s*(am|pm)?`:
`hour` is group 1, `minute` group 2 (0 when absent, as the source
defaults it), `mer` group 3. -/
structure RawTime where
  hour : Nat
  minute : Nat
  mer : Option Meridiem
deriving DecidableEq, Repr

/-- Parse the time regex at a position known to start with digit `c`. -/
def timeAt (c : Char) (rest : List Char) : RawTime :=
  -- greedy `\d{1,2}`
  let p : List Char × List Char :=
    match rest with
    | d :: r => if isDig d then ([c, d], r) else ([c], rest)
    | [] => ([c], [])
  -- optional `:(\d{2})`
  let q : Nat × List Char :=
    match p.2 with
    | ':' :: a :: b :: r =>
      if isDig a && isDig b then (parseDigitsVal [a, b], r) else (0, p.2)
    | _ => (0, p.2)
  -- `\s*`
  let r3 := q.2.dropWhile (fun ch => ch.isWhitespace)
  -- optional `(am|pm)`
  let mer : Option Meridiem :=
    if isPrefixOfB [ 'a', 'm'] r3 then some Meridiem.am
    else if isPrefixOfB [ 'p', 'm'] r3 then some Meridiem.pm
    else none
  { hour := parseDigitsVal p.1, minute := q.1, mer := mer }

/-- Leftmost match of `(\d{1,2})(?::(\d{2}))?\s*(am|pm)?` — the match
starts at the first digit of the text, if any. -/
def findTimeMatch : List Char → Option RawTime
  | [] => none
  | c :: rest => if isDig c then some (timeAt c rest) else findTimeMatch rest

/-- The two meridiem adjustments the source applies to the captured hour:
`if (meridiem === 'pm' && hour < 12) hour += 12;`
`if (meridiem === 'am' && hour === 12) hour = 0;` -/
def adjustHour (h : Nat) (m : Option Meridiem) : Nat :=
  let h1 := if m = some Meridiem.pm ∧ h < 12 then h + 12 else h
  if m = some Meridiem.am ∧ h1 = 12 then 0 else h1

def inLit : List Char := [ 'i', 'n', ' ']
def dayLit : List Char := [ 'd', 'a', 'y']
def hourLit : List Char := [ 'h', 'o', 'u', 'r']
def minLit : List Char := [ 'm', 'i', 'n']
def secLit : List Char := [ 's', 'e', 'c']

/-- Attempt one `in (\d+) <unit>` regex at this exact position: the
literal `"in "`, a nonempty greedy digit run, then a space and the
unit's mandatory stem (optional plural tails of the regexes never
affect whether the number is captured). -/
def matchRelAt (unit : List Char) (cs : List Char) : Option Nat :=
  match stripPre inLit cs with
  | none => none
  | some r1 =>
    let p := takeDigits r1
    if p.1.isEmpty then none
    else
      match stripPre (' ' :: unit) p.2 with
      | none => none
      | some _ => some (parseDigitsVal p.1)

/-- Leftmost match of `in (\d+) <unit>`, returning the captured number. -/
def findRel (unit : List Char) : List Char → Option Nat
  | [] => none
  | c :: rest =>
    match matchRelAt unit (c :: rest) with
    | some n => some n
    | none => findRel unit rest

/-- The relative-duration class of `parseNaturalDate` (lines 43–66):
guarded by `includes('in ')`, then the day/hour/minute/second regexes
tried in that fixed order, each producing `now + N * unit` in
milliseconds. -/
def tryRelative (tl : List Char) (now : DateTime) : Option DateTime :=
  if containsSub inLit tl then
    match findRel dayLit tl with
    | some n => some (ofMillis (toMillis now + (n : Int) * 86400000))
    | none =>
      match findRel hourLit tl with
      | some n => some (ofMillis (toMillis now + (n : Int) * 3600000))
      | none =>
        match findRel minLit tl with
        | some n => some (ofMillis (toMillis now + (n : Int) * 60000))
        | none =>
          match findRel secLit tl with
          | some n => some (ofMillis (toMillis now + (n : Int) * 1000))
          | none => none
  else none

/-- `includes('tomorrow') || includes('tommorow') || includes('tmrw')`. -/
def tomorrowCue (tl : List Char) : Bool :=
  containsSub [ 't', 'o', 'm', 'o', 'r', 'r', 'o', 'w'] tl ||
  containsSub [ 't', 'o', 'm', 'm', 'o', 'r', 'o', 'w'] tl ||
  containsSub [ 't', 'm', 'r', 'w'] tl

/-- `includes('today')`. -/
def todayCue (tl : List Char) : Bool :=
  containsSub [ 't', 'o', 'd', 'a', 'y'] tl

/-- `includes('next')`. -/
def nextCue (tl : List Char) : Bool :=
  containsSub [ 'n', 'e', 'x', 't'] tl

/-- The `days` array of the source, scanned from index 0 (Sunday). -/
def dayNames : List (List Char) :=
  [ [ 's', 'u', 'n', 'd', 'a', 'y'],
    [ 'm', 'o', 'n', 'd', 'a', 'y'],
    [ 't', 'u', 'e', 's', 'd', 'a', 'y'],
    [ 'w', 'e', 'd', 'n', 'e', 's', 'd', 'a', 'y'],
    [ 't', 'h', 'u', 'r', 's', 'd', 'a', 'y'],
    [ 'f', 'r', 'i', 'd', 'a', 'y'],
    [ 's', 'a', 't', 'u', 'r', 'd', 'a', 'y'] ]

def firstFrom (tl : List Char) : List (List Char) → Nat → Option Nat
  | [], _ => none
  | n :: ns, i => if containsSub n tl then some i else firstFrom tl ns (i + 1)

/-- Index of the first weekday name (in `dayNames` order) occurring in
the text — the source's `for` loop over `days`. -/
def firstWeekday (tl : List Char) : Option Nat :=
  firstFrom tl dayNames 0

/-- The classes of `parseNaturalDate` that run after the relative class:
tomorrow (lines 68–78), today (80–87), weekday (89–112), bare time
(114–124); `tmatch` is the already-computed time-of-day match. -/
def afterRel (tl : List Char) (now : DateTime) (tmatch : Option RawTime) :
    Option DateTime :=
  let hasTime := tmatch.isSome
  let hour : Nat := match tmatch with
    | some r => adjustHour r.hour r.mer
    | none => 0
  let minute : Nat := match tmatch with
    | some r => r.minute
    | none => 0
  if tomorrowCue tl then
    let tmr := addDays now 1
    some (if hasTime then setHours tmr hour minute else setHours tmr 9 0)
  else if todayCue tl then
    some (if hasTime then setHours now hour minute else now)
  else
    match firstWeekday tl with
    | some target =>
      let diff : Int := (target : Int) - getDay now
      let daysToAdd : Int := if diff ≤ 0 ∨ nextCue tl then diff + 7 else diff
      let td := addDays now daysToAdd
      some (if hasTime then setHours td hour minute else setHours td 9 0)
    | none =>
      if hasTime then
        let result := setHours now hour minute
        some (if toMillis result ≤ toMillis now then addDays result 1 else result)
      else none

/-- `parseNaturalDate(text)` of the source, with the impure
`new Date()` reference instant made an explicit `now` argument. -/
def parseNaturalDate (text : List Char) (now : DateTime) : Option DateTime :=
  let tl := text.map Char.toLower
  match tryRelative tl now with
  | some d => some d
  | none => afterRel tl now (findTimeMatch tl)

/-! ## Reminder lifecycle: jobs, fire handler, command paths, persistence -/

/-- The `data` bag passed to `scheduleOnce` / `scheduleRecurring` and
received back by the job processor: `{ task, userId, roomId }`. -/
structure JobData where
  task : List Char
  userId : Nat
  roomId : Nat
deriving DecidableEq, Repr

/-- The host lookups the fire handler performs
(`read.getUserReader().getById`, `read.getRoomReader().getById`),
abstracted to existence tests on the stored ids. -/
structure Env where
  userExists : Nat → Bool
  roomExists : Nat → Bool

/-- The distinct user-facing message literals the embedded handlers can
post; each constructor stands for one distinct template string of the
source. -/
inductive Msg where
  /-- the smart-schedule confirmation of the natural-language path -/
  | smartSchedule (raw : List Char) (target : DateTime)
  /-- the past-instant rejection of the natural-language path -/
  | pastTime
  /-- the could-not-understand rejection of the natural-language path -/
  | didNotCatch
  /-- the fired-reminder delivery text of `reminderProcessor` -/
  | beep (task : List Char)
  /-- the recurring-reminder-stopped confirmation of the stop path -/
  | stopped
  /-- the no-active-recurring-reminder report of the stop path -/
  | noActiveRecurring
deriving DecidableEq, Repr

/-- Reified host side effects of the embedded handlers. -/
inductive Effect where
  | scheduleOnceAt (jobId : List Char) (whenMillis : Int) (data : JobData)
  | scheduleRecurringEvery (jobId : List Char) (data : JobData)
  | message (roomId : Nat) (m : Msg)
deriving DecidableEq, Repr

/-- Does an effect schedule a job? -/
def isSchedEff : Effect → Bool
  | Effect.scheduleOnceAt _ _ _ => true
  | Effect.scheduleRecurringEvery _ _ => true
  | Effect.message _ _ => false

def reminderJobId : List Char :=
  [ 'r', 'e', 'm', 'i', 'n', 'd', 'e', 'r', '_', 'j', 'o', 'b']

def recurringJobId : List Char :=
  [ 'r', 'e', 'c', 'u', 'r', 'r', 'i', 'n', 'g', '_', 'r', 'e', 'm',
    'i', 'n', 'd', 'e', 'r']

/-- `reminderProcessor` (lines 500–525): reconstruct user and room from
the stored ids; deliver the reminder message only when both still
resolve; otherwise do nothing (the source only logs).  The source wraps
the body in try/catch and never rethrows, so the embedding is a total
function. -/
def reminderProcessor (env : Env) (data : JobData) : List Effect :=
  if env.userExists data.userId && env.roomExists data.roomId then
    [Effect.message data.roomId (Msg.beep data.task)]
  else []

/-- The natural-language branch of `RemindCommand.executor`
(lines 292–351): parse the joined argument text; on success schedule
only when the resolved instant is strictly in the future, otherwise
report the past-time message; on failure report the
could-not-understand message.  The `when: parsedDate.toISOString()`
argument is carried as the resolved instant itself. -/
def nlPath (raw : List Char) (now : DateTime) (senderId roomId : Nat) :
    List Effect :=
  match parseNaturalDate raw now with
  | some d =>
    if toMillis d - toMillis now > 0 then
      [Effect.scheduleOnceAt reminderJobId (toMillis d) ⟨raw, senderId, roomId⟩,
       Effect.message roomId (Msg.smartSchedule raw d)]
    else
      [Effect.message roomId Msg.pastTime]
  | none => [Effect.message roomId Msg.didNotCatch]

/-- The host scheduler's `cancelJob`: removes the job when present,
throws (modelled as `Except.error`) when no such job exists. -/
def cancelJobHost (jobs : List (List Char)) (id : List Char) :
    Except Unit (List (List Char)) :=
  if id ∈ jobs then Except.ok (jobs.filter (fun j => j ≠ id))
  else Except.error ()

/-- The `stop` branch of `RemindCommand.executor` (lines 252–271):
`cancelJob('recurring_reminder')` inside try/catch — a caught failure
is reported with the distinct not-found message and nothing is thrown
to the caller; the job list is returned alongside the posted effects. -/
def stopPath (jobs : List (List Char)) (roomId : Nat) :
    List (List Char) × List Effect :=
  match cancelJobHost jobs recurringJobId with
  | Except.ok js => (js, [Effect.message roomId Msg.stopped])
  | Except.error _ => (jobs, [Effect.message roomId Msg.noActiveRecurring])

/-- A persisted reminder record, as written by
`executeViewSubmitHandler` (lines 575–587). -/
structure Record where
  task : List Char
  createdAt : DateTime
  completed : Bool
  userId : Nat
  username : List Char
deriving DecidableEq, Repr

/-- The record `executeViewSubmitHandler` persists: always created with
`completed := false`. -/
def newRecord (userId : Nat) (username task : List Char) (now : DateTime) :
    Record :=
  { task := task, createdAt := now, completed := false,
    userId := userId, username := username }

/-- The persisted store: user-association key paired with the record. -/
abbrev Store := List (Nat × Record)

/-- Every operation of the app that can run against the store: the
modal submission, each `/remind` subcommand, and a scheduled-job fire
event. -/
inductive Op where
  | submitView (userId : Nat) (username task : List Char) (now : DateTime)
  | clearCmd (userId : Nat)
  | listCmd (userId : Nat)
  | fireJob (env : Env) (data : JobData)
  | scheduleCmd (userId roomId : Nat) (task : List Char)
  | recurCmd (userId roomId : Nat) (task : List Char)
  | stopCmd (userId roomId : Nat)
  | helpCmd (userId roomId : Nat)
  | nlCmd (userId roomId : Nat) (raw : List Char) (now : DateTime)
  | openModalCmd (userId : Nat)

/-- The effect of each operation on the persisted store.
`submitView` runs `createWithAssociation` with `completed: false`;
`clearCmd` reads the user's records and calls `removeByAssociation`
only when some exist; every other operation — including the fire event
`reminderProcessor`, which never touches its `persistence` argument —
leaves the store untouched. -/
def applyStore (s : Store) : Op → Store
  | Op.submitView uid uname task now => (uid, newRecord uid uname task now) :: s
  | Op.clearCmd uid =>
    if (s.filter (fun p => p.1 = uid)).isEmpty then s
    else s.filter (fun p => p.1 ≠ uid)
  | _ => s

/-! ## Helper lemmas: digit strings and the `in (\d+) <unit>` scanner -/

lemma isDig_digitChar (d : Nat) : isDig (digitChar d) = true := by
  rcases d with _ | _ | _ | _ | _ | _ | _ | _ | _ | _ <;> rfl

lemma toLower_digitChar (d : Nat) : (digitChar d).toLower = digitChar d := by
  rcases d with _ | _ | _ | _ | _ | _ | _ | _ | _ | _ <;> rfl

lemma digitChar_toNat (d : Nat) (h : d < 10) : (digitChar d).toNat = 48 + d := by
  interval_cases d <;> rfl

lemma ne_of_isDig {c c' : Char} (h : isDig c = true) (h' : isDig c' = false) :
    c ≠ c' := by
  intro e
  rw [e, h'] at h
  cases h

lemma natDigits_ne_nil (n : Nat) : natDigits n ≠ [] := by
  rw [natDigits]
  split
  · simp
  · simp

lemma natDigits_mem (n : Nat) : ∀ c ∈ natDigits n, ∃ d, c = digitChar d := by
  induction n using Nat.strong_induction_on with
  | _ n ih =>
    rw [natDigits]
    split
    · intro c hc
      simp only [List.mem_singleton] at hc
      exact ⟨n, hc⟩
    · intro c hc
      rcases List.mem_append.mp hc with h1 | h2
      · exact ih (n / 10) (Nat.div_lt_self (by omega) (by decide)) c h1
      · simp only [List.mem_singleton] at h2
        exact ⟨n % 10, h2⟩

lemma natDigits_isDig (n : Nat) : ∀ c ∈ natDigits n, isDig c = true := by
  intro c hc
  obtain ⟨d, rfl⟩ := natDigits_mem n c hc
  exact isDig_digitChar d

lemma map_id_of_mem {f : Char → Char} :
    ∀ {l : List Char}, (∀ c ∈ l, f c = c) → l.map f = l
  | [], _ => rfl
  | c :: cs, h => by
    simp only [List.map_cons, List.cons.injEq]
    exact ⟨h c (by simp), map_id_of_mem fun x hx => h x (by simp [hx])⟩

lemma toLower_natDigits (n : Nat) :
    (natDigits n).map Char.toLower = natDigits n := by
  refine map_id_of_mem fun c hc => ?_
  obtain ⟨d, rfl⟩ := natDigits_mem n c hc
  exact toLower_digitChar d

lemma parseDigitsVal_natDigits (n : Nat) : parseDigitsVal (natDigits n) = n := by
  induction n using Nat.strong_induction_on with
  | _ n ih =>
    rw [natDigits]
    split
    · rename_i h
      simp [parseDigitsVal, digitChar_toNat n h]
    · rename_i h
      have ihd := ih (n / 10) (Nat.div_lt_self (by omega) (by decide))
      simp only [parseDigitsVal, List.foldl_append] at *
      rw [ihd]
      simp only [List.foldl_cons, List.foldl_nil]
      rw [digitChar_toNat (n % 10) (Nat.mod_lt n (by decide))]
      omega

/-- The remainder after a greedy digit run must not begin with a digit. -/
def headNotDig : List Char → Prop
  | [] => True
  | c :: _ => isDig c = false

lemma takeDigits_append {ds rest : List Char}
    (h2 : ∀ c ∈ ds, isDig c = true) (h3 : headNotDig rest) :
    takeDigits (ds ++ rest) = (ds, rest) := by
  induction ds with
  | nil =>
    cases rest with
    | nil => rfl
    | cons c r =>
      simp only [headNotDig] at h3
      simp [takeDigits, h3]
  | cons c cs ih =>
    have hc : isDig c = true := h2 c (by simp)
    have ih2 := ih fun x hx => h2 x (by simp [hx])
    simp only [List.cons_append, takeDigits, hc, if_true, List.append_eq, ih2]

lemma matchRelAt_cons_ne (unit : List Char) {c : Char} (t : List Char)
    (h : c ≠ 'i') : matchRelAt unit (c :: t) = none := by
  simp [matchRelAt, inLit, stripPre, (Ne.symm h)]

lemma findRel_cons_ne (unit : List Char) {c : Char} (t : List Char)
    (h : c ≠ 'i') : findRel unit (c :: t) = findRel unit t := by
  simp [findRel, matchRelAt_cons_ne unit t h]

lemma findRel_digits_skip (unit : List Char) {ds : List Char} (t : List Char)
    (h : ∀ c ∈ ds, isDig c = true) :
    findRel unit (ds ++ t) = findRel unit t := by
  induction ds with
  | nil => rfl
  | cons c cs ih =>
    have hc : isDig c = true := h c (by simp)
    rw [List.cons_append,
      findRel_cons_ne unit _ (ne_of_isDig hc (by decide)),
      ih fun x hx => h x (by simp [hx])]

/-- Evaluation of the leftmost `in (\d+) <unit>` scan on a text of the
shape `"in " ++ digits ++ rest`: the number is captured iff `rest`
begins with a space and the unit stem; otherwise the scan proceeds
into `rest` alone. -/
lemma findRel_structured (unit : List Char) {ds : List Char} (rest : List Char)
    (h1 : ds ≠ []) (h2 : ∀ c ∈ ds, isDig c = true) (h3 : headNotDig rest) :
    findRel unit ( 'i' :: 'n' :: ' ' :: (ds ++ rest)) =
      match stripPre (' ' :: unit) rest with
      | some _ => some (parseDigitsVal ds)
      | none => findRel unit rest := by
  have htake : takeDigits (ds ++ rest) = (ds, rest) := takeDigits_append h2 h3
  have hne : ds.isEmpty = false := by
    cases ds with
    | nil => exact absurd rfl h1
    | cons a l => rfl
  cases hs : stripPre (' ' :: unit) rest with
  | some r =>
    have hmatch : matchRelAt unit ( 'i' :: 'n' :: ' ' :: (ds ++ rest)) =
        some (parseDigitsVal ds) := by
      simp [matchRelAt, inLit, stripPre, htake, hne, hs]
    simp only [findRel, hmatch]
  | none =>
    have hmatch : matchRelAt unit ( 'i' :: 'n' :: ' ' :: (ds ++ rest)) =
        none := by
      simp [matchRelAt, inLit, stripPre, htake, hne, hs]
    have hm2 : matchRelAt unit ( 'n' :: ' ' :: (ds ++ rest)) = none :=
      matchRelAt_cons_ne unit _ (by decide)
    have hm3 : matchRelAt unit ( ' ' :: (ds ++ rest)) = none :=
      matchRelAt_cons_ne unit _ (by decide)
    simp only [findRel, hmatch, hm2, hm3, findRel_digits_skip unit rest h2]

lemma containsSub_in_head (x : List Char) :
    containsSub inLit ( 'i' :: 'n' :: ' ' :: x) = true := by
  simp [containsSub, isPrefixOfB, inLit]

/-! ## Branch lemmas for `parseNaturalDate` -/

lemma parse_of_rel {text : List Char} {now d : DateTime}
    (h : tryRelative (text.map Char.toLower) now = some d) :
    parseNaturalDate text now = some d := by
  simp [parseNaturalDate, h]

lemma parse_of_no_rel {text : List Char} {now : DateTime}
    (h : tryRelative (text.map Char.toLower) now = none) :
    parseNaturalDate text now =
      afterRel (text.map Char.toLower) now
        (findTimeMatch (text.map Char.toLower)) := by
  simp [parseNaturalDate, h]

lemma afterRel_tomorrow {tl : List Char} (now : DateTime)
    (tm : Option RawTime) (h : tomorrowCue tl = true) :
    afterRel tl now tm = some
      (match tm with
       | some r => setHours (addDays now 1) (adjustHour r.hour r.mer) r.minute
       | none => setHours (addDays now 1) 9 0) := by
  cases tm <;> simp [afterRel, h]

lemma afterRel_today {tl : List Char} (now : DateTime)
    (tm : Option RawTime) (h1 : tomorrowCue tl = false)
    (h2 : todayCue tl = true) :
    afterRel tl now tm = some
      (match tm with
       | some r => setHours now (adjustHour r.hour r.mer) r.minute
       | none => now) := by
  cases tm <;> simp [afterRel, h1, h2]

lemma afterRel_weekday {tl : List Char} (now : DateTime)
    (tm : Option RawTime) {target : Nat} (h1 : tomorrowCue tl = false)
    (h2 : todayCue tl = false) (h3 : firstWeekday tl = some target) :
    afterRel tl now tm = some
      (let diff : Int := (target : Int) - getDay now
       let daysToAdd : Int := if diff ≤ 0 ∨ nextCue tl then diff + 7 else diff
       let td := addDays now daysToAdd
       match tm with
       | some r => setHours td (adjustHour r.hour r.mer) r.minute
       | none => setHours td 9 0) := by
  cases tm <;> simp [afterRel, h1, h2, h3]

lemma afterRel_baretime {tl : List Char} (now : DateTime)
    {r : RawTime} (h1 : tomorrowCue tl = false) (h2 : todayCue tl = false)
    (h3 : firstWeekday tl = none) :
    afterRel tl now (some r) = some
      (let result := setHours now (adjustHour r.hour r.mer) r.minute
       if toMillis result ≤ toMillis now then addDays result 1 else result) := by
  simp [afterRel, h1, h2, h3]

/-! ## Relative-duration texts `"in N <unit>"` for arbitrary `N` -/

lemma lower_inText (N : Nat) (rest : List Char)
    (h : rest.map Char.toLower = rest) :
    ( 'i' :: 'n' :: ' ' :: (natDigits N ++ rest)).map Char.toLower =
      'i' :: 'n' :: ' ' :: (natDigits N ++ rest) := by
  simp only [List.map_cons, List.map_append, toLower_natDigits, h,
    List.cons.injEq]
  exact ⟨by decide, by decide, by decide, trivial⟩

lemma findRel_days_someN (N : Nat) :
    findRel dayLit ( 'i' :: 'n' :: ' ' ::
      (natDigits N ++ [ ' ', 'd', 'a', 'y', 's'])) = some N := by
  rw [findRel_structured dayLit [ ' ', 'd', 'a', 'y', 's']
    (natDigits_ne_nil N) (natDigits_isDig N) (by show isDig ' ' = false; decide)]
  simp [stripPre, dayLit, parseDigitsVal_natDigits]

lemma findRel_hours_day_none (N : Nat) :
    findRel dayLit ( 'i' :: 'n' :: ' ' ::
      (natDigits N ++ [ ' ', 'h', 'o', 'u', 'r', 's'])) = none := by
  rw [findRel_structured dayLit [ ' ', 'h', 'o', 'u', 'r', 's']
    (natDigits_ne_nil N) (natDigits_isDig N) (by show isDig ' ' = false; decide)]
  rfl

lemma findRel_hours_someN (N : Nat) :
    findRel hourLit ( 'i' :: 'n' :: ' ' ::
      (natDigits N ++ [ ' ', 'h', 'o', 'u', 'r', 's'])) = some N := by
  rw [findRel_structured hourLit [ ' ', 'h', 'o', 'u', 'r', 's']
    (natDigits_ne_nil N) (natDigits_isDig N) (by show isDig ' ' = false; decide)]
  simp [stripPre, hourLit, parseDigitsVal_natDigits]

lemma findRel_minutes_day_none (N : Nat) :
    findRel dayLit ( 'i' :: 'n' :: ' ' ::
      (natDigits N ++ [ ' ', 'm', 'i', 'n', 'u', 't', 'e', 's'])) = none := by
  rw [findRel_structured dayLit [ ' ', 'm', 'i', 'n', 'u', 't', 'e', 's']
    (natDigits_ne_nil N) (natDigits_isDig N) (by show isDig ' ' = false; decide)]
  rfl

lemma findRel_minutes_hour_none (N : Nat) :
    findRel hourLit ( 'i' :: 'n' :: ' ' ::
      (natDigits N ++ [ ' ', 'm', 'i', 'n', 'u', 't', 'e', 's'])) = none := by
  rw [findRel_structured hourLit [ ' ', 'm', 'i', 'n', 'u', 't', 'e', 's']
    (natDigits_ne_nil N) (natDigits_isDig N) (by show isDig ' ' = false; decide)]
  rfl

lemma findRel_minutes_someN (N : Nat) :
    findRel minLit ( 'i' :: 'n' :: ' ' ::
      (natDigits N ++ [ ' ', 'm', 'i', 'n', 'u', 't', 'e', 's'])) = some N := by
  rw [findRel_structured minLit [ ' ', 'm', 'i', 'n', 'u', 't', 'e', 's']
    (natDigits_ne_nil N) (natDigits_isDig N) (by show isDig ' ' = false; decide)]
  simp [stripPre, minLit, parseDigitsVal_natDigits]

lemma findRel_seconds_day_none (N : Nat) :
    findRel dayLit ( 'i' :: 'n' :: ' ' ::
      (natDigits N ++ [ ' ', 's', 'e', 'c', 'o', 'n', 'd', 's'])) = none := by
  rw [findRel_structured dayLit [ ' ', 's', 'e', 'c', 'o', 'n', 'd', 's']
    (natDigits_ne_nil N) (natDigits_isDig N) (by show isDig ' ' = false; decide)]
  rfl

lemma findRel_seconds_hour_none (N : Nat) :
    findRel hourLit ( 'i' :: 'n' :: ' ' ::
      (natDigits N ++ [ ' ', 's', 'e', 'c', 'o', 'n', 'd', 's'])) = none := by
  rw [findRel_structured hourLit [ ' ', 's', 'e', 'c', 'o', 'n', 'd', 's']
    (natDigits_ne_nil N) (natDigits_isDig N) (by show isDig ' ' = false; decide)]
  rfl

lemma findRel_seconds_min_none (N : Nat) :
    findRel minLit ( 'i' :: 'n' :: ' ' ::
      (natDigits N ++ [ ' ', 's', 'e', 'c', 'o', 'n', 'd', 's'])) = none := by
  rw [findRel_structured minLit [ ' ', 's', 'e', 'c', 'o', 'n', 'd', 's']
    (natDigits_ne_nil N) (natDigits_isDig N) (by show isDig ' ' = false; decide)]
  rfl

lemma findRel_seconds_someN (N : Nat) :
    findRel secLit ( 'i' :: 'n' :: ' ' ::
      (natDigits N ++ [ ' ', 's', 'e', 'c', 'o', 'n', 'd', 's'])) = some N := by
  rw [findRel_structured secLit [ ' ', 's', 'e', 'c', 'o', 'n', 'd', 's']
    (natDigits_ne_nil N) (natDigits_isDig N) (by show isDig ' ' = false; decide)]
  simp [stripPre, secLit, parseDigitsVal_natDigits]

/-- **C1.** For every natural number `N` and every unit in
{days, hours, minutes, seconds}, resolving the text `"in N <unit>"`
against reference instant `now` yields exactly `now + N * unit`
(first conjunct, with `N` rendered in decimal by `natDigits`); and when
phrases for several units are textually present, only the first unit
recognized in the fixed order days, hours, minutes, seconds determines
the result (second conjunct: whichever unit regex matches first in that
order fixes the result, irrespective of the other matches). -/
theorem c1_relative_duration :
    (∀ (N : Nat) (now : DateTime),
      parseNaturalDate ( 'i' :: 'n' :: ' ' ::
          (natDigits N ++ [ ' ', 'd', 'a', 'y', 's'])) now =
        some (ofMillis (toMillis now + (N : Int) * 86400000)) ∧
      parseNaturalDate ( 'i' :: 'n' :: ' ' ::
          (natDigits N ++ [ ' ', 'h', 'o', 'u', 'r', 's'])) now =
        some (ofMillis (toMillis now + (N : Int) * 3600000)) ∧
      parseNaturalDate ( 'i' :: 'n' :: ' ' ::
          (natDigits N ++ [ ' ', 'm', 'i', 'n', 'u', 't', 'e', 's'])) now =
        some (ofMillis (toMillis now + (N : Int) * 60000)) ∧
      parseNaturalDate ( 'i' :: 'n' :: ' ' ::
          (natDigits N ++ [ ' ', 's', 'e', 'c', 'o', 'n', 'd', 's'])) now =
        some (ofMillis (toMillis now + (N : Int) * 1000))) ∧
    (∀ (text : List Char) (now : DateTime),
      containsSub inLit (text.map Char.toLower) = true →
      (∀ n, findRel dayLit (text.map Char.toLower) = some n →
        parseNaturalDate text now =
          some (ofMillis (toMillis now + (n : Int) * 86400000))) ∧
      (findRel dayLit (text.map Char.toLower) = none →
       ∀ n, findRel hourLit (text.map Char.toLower) = some n →
        parseNaturalDate text now =
          some (ofMillis (toMillis now + (n : Int) * 3600000))) ∧
      (findRel dayLit (text.map Char.toLower) = none →
       findRel hourLit (text.map Char.toLower) = none →
       ∀ n, findRel minLit (text.map Char.toLower) = some n →
        parseNaturalDate text now =
          some (ofMillis (toMillis now + (n : Int) * 60000))) ∧
      (findRel dayLit (text.map Char.toLower) = none →
       findRel hourLit (text.map Char.toLower) = none →
       findRel minLit (text.map Char.toLower) = none →
       ∀ n, findRel secLit (text.map Char.toLower) = some n →
        parseNaturalDate text now =
          some (ofMillis (toMillis now + (n : Int) * 1000)))) := by
  constructor
  · intro N now
    refine ⟨?_, ?_, ?_, ?_⟩
    · apply parse_of_rel
      rw [lower_inText N _ (by decide)]
      simp [tryRelative, containsSub_in_head, findRel_days_someN]
    · apply parse_of_rel
      rw [lower_inText N _ (by decide)]
      simp [tryRelative, containsSub_in_head, findRel_hours_day_none,
        findRel_hours_someN]
    · apply parse_of_rel
      rw [lower_inText N _ (by decide)]
      simp [tryRelative, containsSub_in_head, findRel_minutes_day_none,
        findRel_minutes_hour_none, findRel_minutes_someN]
    · apply parse_of_rel
      rw [lower_inText N _ (by decide)]
      simp [tryRelative, containsSub_in_head, findRel_seconds_day_none,
        findRel_seconds_hour_none, findRel_seconds_min_none,
        findRel_seconds_someN]
  · intro text now hin
    refine ⟨?_, ?_, ?_, ?_⟩
    · intro n hd
      exact parse_of_rel (by simp [tryRelative, hin, hd])
    · intro hd n hh
      exact parse_of_rel (by simp [tryRelative, hin, hd, hh])
    · intro hd hh n hm
      exact parse_of_rel (by simp [tryRelative, hin, hd, hh, hm])
    · intro hd hh hm n hs
      exact parse_of_rel (by simp [tryRelative, hin, hd, hh, hm, hs])

/-- Witness for C1: the concrete text `"in 2 hours"` at a concrete
instant, resolved through the priority conjunct with the day regex
failing and the hour regex capturing 2, lands exactly two hours ahead. -/
theorem c1_relative_duration_witness :
    parseNaturalDate [ 'i', 'n', ' ', '2', ' ', 'h', 'o', 'u', 'r', 's']
      ⟨0, 0⟩ = some ⟨0, 7200000⟩ := by
  have h := (c1_relative_duration.2
    [ 'i', 'n', ' ', '2', ' ', 'h', 'o', 'u', 'r', 's'] ⟨0, 0⟩
    (by decide)).2.1 (by decide) 2 (by decide)
  exact h.trans (by decide)

/-- **C2, counterexample.** The claim asserts the "today" class has
priority over the "tomorrow" class, so that text matching both resolves
to the today result (`now` unchanged when no time-of-day is present).
The source checks `tomorrow` (lines 68–78) BEFORE `today` (lines
80–87): on the text `"today tomorrow"` (which matches both classes and
carries no time-of-day) at `now` = day 0, 00:00, the code returns the
tomorrow result — next day at 09:00 — not `now` unchanged. -/
theorem c2_counterexample :
    todayCue [ 't', 'o', 'd', 'a', 'y', ' ',
      't', 'o', 'm', 'o', 'r', 'r', 'o', 'w'] = true ∧
    tomorrowCue [ 't', 'o', 'd', 'a', 'y', ' ',
      't', 'o', 'm', 'o', 'r', 'r', 'o', 'w'] = true ∧
    findTimeMatch [ 't', 'o', 'd', 'a', 'y', ' ',
      't', 'o', 'm', 'o', 'r', 'r', 'o', 'w'] = none ∧
    parseNaturalDate [ 't', 'o', 'd', 'a', 'y', ' ',
      't', 'o', 'm', 'o', 'r', 'r', 'o', 'w'] ⟨0, 0⟩ =
      some ⟨1, 32400000⟩ ∧
    (⟨1, 32400000⟩ : DateTime) ≠ (⟨0, 0⟩ : DateTime) :=
  ⟨by decide, by decide, by decide, by decide, by decide⟩

/-- **C2 (amended).** The resolver tries the pattern classes in the
order relative duration, then "tomorrow", then "today", then weekday,
then bare time-of-day, and the first matching class wins; in
particular, for every input text that matches both the "today" class
and the "tomorrow" class, the result is the TOMORROW-class result:
`now + 1 day` with extracted time-of-day applied if present, else
defaulting to 09:00.  (The claim's today-before-tomorrow priority is
reversed in the code; everything else stands.) -/
theorem c2_class_priority :
    (∀ (text : List Char) (now d : DateTime),
      tryRelative (text.map Char.toLower) now = some d →
      parseNaturalDate text now = some d) ∧
    (∀ (text : List Char) (now : DateTime),
      tryRelative (text.map Char.toLower) now = none →
      tomorrowCue (text.map Char.toLower) = true →
      parseNaturalDate text now = some
        (match findTimeMatch (text.map Char.toLower) with
         | some r => setHours (addDays now 1) (adjustHour r.hour r.mer) r.minute
         | none => setHours (addDays now 1) 9 0)) ∧
    (∀ (text : List Char) (now : DateTime),
      tryRelative (text.map Char.toLower) now = none →
      tomorrowCue (text.map Char.toLower) = false →
      todayCue (text.map Char.toLower) = true →
      parseNaturalDate text now = some
        (match findTimeMatch (text.map Char.toLower) with
         | some r => setHours now (adjustHour r.hour r.mer) r.minute
         | none => now)) := by
  refine ⟨fun text now d h => parse_of_rel h, ?_, ?_⟩
  · intro text now h1 h2
    rw [parse_of_no_rel h1, afterRel_tomorrow now _ h2]
  · intro text now h1 h2 h3
    rw [parse_of_no_rel h1, afterRel_today now _ h2 h3]

/-- Witness for C2 (amended): `"today tomorrow"` (no time-of-day) at
day 0, 00:00 resolves through the tomorrow class to day 1, 09:00. -/
theorem c2_class_priority_witness :
    parseNaturalDate [ 't', 'o', 'd', 'a', 'y', ' ',
      't', 'o', 'm', 'o', 'r', 'r', 'o', 'w'] ⟨0, 0⟩ =
      some ⟨1, 32400000⟩ := by
  have h := c2_class_priority.2.1
    [ 't', 'o', 'd', 'a', 'y', ' ', 't', 'o', 'm', 'o', 'r', 'r', 'o', 'w']
    ⟨0, 0⟩ (by decide) (by decide)
  exact h.trans (by decide)

/-- **C4, counterexample.** The claim says the result is the next
occurrence of the named weekday, pushed one full week forward when the
text contains "next".  On a Wednesday (day 6; `getDay = 3`), the next
occurrence of Monday is 5 days ahead, so the claim's reading of
`"next monday"` is 5 + 7 = 12 days ahead.  The code instead adds 7 to
the signed difference `target - current = -2` only once, yielding 5
days ahead (day 11 at 09:00): "next" adds nothing when the named day
has already passed this week. -/
theorem c4_counterexample :
    parseNaturalDate [ 'n', 'e', 'x', 't', ' ',
      'm', 'o', 'n', 'd', 'a', 'y'] ⟨6, 0⟩ = some ⟨11, 32400000⟩ ∧
    ((11 : Int) - 6 ≠ 12) :=
  ⟨by decide, by decide⟩

/-- **C4 (amended).** For a weekday-name text the resolver computes the
signed difference `diff = target - current` of weekday indices and adds
7 exactly once when `diff ≤ 0` or the text contains "next", then lands
at the extracted time-of-day or 09:00.  Hence: on a Monday, "monday"
resolves 7 days ahead; on a Wednesday, "friday" resolves 2 days ahead
and "next friday" 9 days ahead (the claim's examples, final three
conjuncts); but when the named day already passed this week, "next"
does not push a week beyond the next occurrence. -/
theorem c4_weekday_resolution :
    (∀ (text : List Char) (now : DateTime) (target : Nat),
      tryRelative (text.map Char.toLower) now = none →
      tomorrowCue (text.map Char.toLower) = false →
      todayCue (text.map Char.toLower) = false →
      firstWeekday (text.map Char.toLower) = some target →
      parseNaturalDate text now = some
        (let diff : Int := (target : Int) - getDay now
         let daysToAdd : Int :=
           if diff ≤ 0 ∨ nextCue (text.map Char.toLower) then diff + 7 else diff
         let td := addDays now daysToAdd
         match findTimeMatch (text.map Char.toLower) with
         | some r => setHours td (adjustHour r.hour r.mer) r.minute
         | none => setHours td 9 0)) ∧
    parseNaturalDate [ 'm', 'o', 'n', 'd', 'a', 'y'] ⟨4, 0⟩ =
      some ⟨11, 32400000⟩ ∧
    parseNaturalDate [ 'f', 'r', 'i', 'd', 'a', 'y'] ⟨6, 0⟩ =
      some ⟨8, 32400000⟩ ∧
    parseNaturalDate [ 'n', 'e', 'x', 't', ' ',
      'f', 'r', 'i', 'd', 'a', 'y'] ⟨6, 0⟩ = some ⟨15, 32400000⟩ := by
  refine ⟨?_, by decide, by decide, by decide⟩
  intro text now target h1 h2 h3 h4
  rw [parse_of_no_rel h1, afterRel_weekday now _ h2 h3 h4]

/-- Witness for C4 (amended): `"saturday"` on a Thursday (day 0)
resolves 2 days ahead at 09:00. -/
theorem c4_weekday_resolution_witness :
    parseNaturalDate [ 's', 'a', 't', 'u', 'r', 'd', 'a', 'y'] ⟨0, 0⟩ =
      some ⟨2, 32400000⟩ := by
  have h := c4_weekday_resolution.1
    [ 's', 'a', 't', 'u', 'r', 'd', 'a', 'y'] ⟨0, 0⟩ 6
    (by decide) (by decide) (by decide) (by decide)
  exact h.trans (by decide)

/-- **C5.** For every text containing a bare time-of-day and no date
cue (no relative match, no tomorrow/today cue, no weekday name), the
resolver interprets it as today at that time and rolls forward exactly
one day when that instant is not strictly after `now` (general
conjunct; note the `≤`, so an instant exactly equal to `now` also
rolls).  Concretely: `"5pm"` at 14:00 yields today 17:00, at 18:00
yields tomorrow 17:00, and at exactly 17:00 also rolls to tomorrow. -/
theorem c5_bare_time :
    (∀ (text : List Char) (now : DateTime) (r : RawTime),
      tryRelative (text.map Char.toLower) now = none →
      tomorrowCue (text.map Char.toLower) = false →
      todayCue (text.map Char.toLower) = false →
      firstWeekday (text.map Char.toLower) = none →
      findTimeMatch (text.map Char.toLower) = some r →
      parseNaturalDate text now = some
        (let result := setHours now (adjustHour r.hour r.mer) r.minute
         if toMillis result ≤ toMillis now then addDays result 1 else result)) ∧
    parseNaturalDate [ '5', 'p', 'm'] ⟨0, 50400000⟩ = some ⟨0, 61200000⟩ ∧
    parseNaturalDate [ '5', 'p', 'm'] ⟨0, 64800000⟩ = some ⟨1, 61200000⟩ ∧
    parseNaturalDate [ '5', 'p', 'm'] ⟨0, 61200000⟩ = some ⟨1, 61200000⟩ := by
  refine ⟨?_, by decide, by decide, by decide⟩
  intro text now r h1 h2 h3 h4 h5
  rw [parse_of_no_rel h1, h5, afterRel_baretime now h2 h3 h4]

/-- Witness for C5: `"5pm"` at day 0, 14:00 resolves to day 0, 17:00
through the bare-time class. -/
theorem c5_bare_time_witness :
    parseNaturalDate [ '5', 'p', 'm'] ⟨0, 50400000⟩ =
      some ⟨0, 61200000⟩ := by
  have h := c5_bare_time.1 [ '5', 'p', 'm'] ⟨0, 50400000⟩
    ⟨5, 0, some Meridiem.pm⟩
    (by decide) (by decide) (by decide) (by decide) (by decide)
  exact h.trans (by decide)

/-- **C6.** The shared time-of-day extraction maps `H[:MM][am|pm]` so
that: with meridiem `pm` the hour gains 12 unless already ≥ 12; with
meridiem `am` an hour of 12 maps to 0 (and any other hour is kept);
with no meridiem the literal digits pass through with no validation
against the 0–23 range — e.g. the two-digit hour 99 is captured
unchecked and flows into `setHours`, rolling over four days. -/
theorem c6_time_extraction :
    (∀ h : Nat, adjustHour h (some Meridiem.pm) =
      if h < 12 then h + 12 else h) ∧
    adjustHour 12 (some Meridiem.am) = 0 ∧
    (∀ h : Nat, h ≠ 12 → adjustHour h (some Meridiem.am) = h) ∧
    (∀ h : Nat, adjustHour h none = h) ∧
    findTimeMatch [ '9', '9'] = some ⟨99, 0, none⟩ ∧
    findTimeMatch [ '5', ':', '3', '0', 'p', 'm'] =
      some ⟨5, 30, some Meridiem.pm⟩ ∧
    parseNaturalDate [ '9', '9'] ⟨0, 0⟩ = some ⟨4, 10800000⟩ := by
  refine ⟨?_, by decide, ?_, ?_, by decide, by decide, by decide⟩
  · intro h
    by_cases hlt : h < 12 <;> simp [adjustHour, hlt]
  · intro h hne
    simp [adjustHour, hne]
  · intro h
    simp [adjustHour]

/-- Witness for C6: an `am` hour other than 12 is kept unchanged. -/
theorem c6_time_extraction_witness :
    adjustHour 5 (some Meridiem.am) = 5 :=
  c6_time_extraction.2.2.1 5 (by decide)

/-! ## The weekday scan honors the first name in `dayNames` order -/

lemma firstFrom_spec {tl : List Char} :
    ∀ (names : List (List Char)) (base i : Nat),
      firstFrom tl names base = some i →
      base ≤ i ∧ i - base < names.length ∧
      containsSub (names.getD (i - base) []) tl = true ∧
      ∀ j, j < i - base → containsSub (names.getD j []) tl = false
  | [], base, i, h => by simp [firstFrom] at h
  | n :: ns, base, i, h => by
    by_cases hc : containsSub n tl = true
    · simp only [firstFrom, hc, if_true, Option.some.injEq] at h
      subst h
      refine ⟨le_refl _, by simp, by simpa, fun j hj => absurd hj (by omega)⟩
    · rw [Bool.not_eq_true] at hc
      simp only [firstFrom, hc, Bool.false_eq_true, if_false] at h
      obtain ⟨h1, h2, h3, h4⟩ := firstFrom_spec ns (base + 1) i h
      refine ⟨by omega, ?_, ?_, ?_⟩
      · simp only [List.length_cons]
        omega
      · have he : i - base = (i - (base + 1)) + 1 := by omega
        rw [he, List.getD_cons_succ]
        exact h3
      · intro j hj
        cases j with
        | zero => simpa using hc
        | succ j2 =>
          rw [List.getD_cons_succ]
          exact h4 j2 (by omega)

lemma firstWeekday_least {tl : List Char} {i : Nat}
    (h : firstWeekday tl = some i) :
    i < 7 ∧ containsSub (dayNames.getD i []) tl = true ∧
    ∀ j, j < i → containsSub (dayNames.getD j []) tl = false := by
  obtain ⟨h1, h2, h3, h4⟩ := firstFrom_spec dayNames 0 i h
  simp only [Nat.sub_zero] at h2 h3 h4
  refine ⟨?_, h3, h4⟩
  simpa [dayNames] using h2

/-- **C10.** If the input text contains the names of two or more
weekdays, the resolver honors the weekday coming first in the fixed
scan order Sunday, Monday, …, Saturday, irrespective of which appears
first in the text: when the scan settles on index `i`, that day name
occurs in the text, every earlier-indexed day name does not, and the
result is computed from `i` alone (general conjunct).  Concretely,
`"friday sunday"` on a Thursday resolves via Sunday (index 0, 3 days
ahead) even though "friday" appears first in the text, while `"friday"`
alone would resolve 1 day ahead. -/
theorem c10_weekday_scan_order :
    (∀ (text : List Char) (now : DateTime) (i : Nat),
      tryRelative (text.map Char.toLower) now = none →
      tomorrowCue (text.map Char.toLower) = false →
      todayCue (text.map Char.toLower) = false →
      firstWeekday (text.map Char.toLower) = some i →
      containsSub (dayNames.getD i []) (text.map Char.toLower) = true ∧
      (∀ j, j < i →
        containsSub (dayNames.getD j []) (text.map Char.toLower) = false) ∧
      parseNaturalDate text now = some
        (let diff : Int := (i : Int) - getDay now
         let daysToAdd : Int :=
           if diff ≤ 0 ∨ nextCue (text.map Char.toLower) then diff + 7 else diff
         let td := addDays now daysToAdd
         match findTimeMatch (text.map Char.toLower) with
         | some r => setHours td (adjustHour r.hour r.mer) r.minute
         | none => setHours td 9 0)) ∧
    firstWeekday [ 'f', 'r', 'i', 'd', 'a', 'y', ' ',
      's', 'u', 'n', 'd', 'a', 'y'] = some 0 ∧
    parseNaturalDate [ 'f', 'r', 'i', 'd', 'a', 'y', ' ',
      's', 'u', 'n', 'd', 'a', 'y'] ⟨0, 0⟩ = some ⟨3, 32400000⟩ ∧
    parseNaturalDate [ 'f', 'r', 'i', 'd', 'a', 'y'] ⟨0, 0⟩ =
      some ⟨1, 32400000⟩ := by
  refine ⟨?_, by decide, by decide, by decide⟩
  intro text now i h1 h2 h3 h4
  obtain ⟨hi7, hocc, hleast⟩ := firstWeekday_least h4
  refine ⟨hocc, hleast, ?_⟩
  rw [parse_of_no_rel h1, afterRel_weekday now _ h2 h3 h4]

/-- Witness for C10: `"friday sunday"` on a Thursday (day 0) resolves
via Sunday to day 3 at 09:00. -/
theorem c10_weekday_scan_order_witness :
    parseNaturalDate [ 'f', 'r', 'i', 'd', 'a', 'y', ' ',
      's', 'u', 'n', 'd', 'a', 'y'] ⟨0, 0⟩ = some ⟨3, 32400000⟩ := by
  have h := (c10_weekday_scan_order.1
    [ 'f', 'r', 'i', 'd', 'a', 'y', ' ', 's', 'u', 'n', 'd', 'a', 'y']
    ⟨0, 0⟩ 0 (by decide) (by decide) (by decide) (by decide)).2.2
  exact h.trans (by decide)

/-! ## Persistence frame and error-path claims -/

lemma applyStore_mem {s : Store} {op : Op} {p : Nat × Record}
    (hp : p ∈ applyStore s op) : p ∈ s ∨ p.2.completed = false := by
  cases op with
  | submitView uid uname task now =>
    rcases List.mem_cons.mp hp with h | h
    · right
      rw [h]
      rfl
    · exact Or.inl h
  | clearCmd uid =>
    simp only [applyStore] at hp
    split at hp
    · exact Or.inl hp
    · exact Or.inl (List.mem_of_mem_filter hp)
  | listCmd uid => exact Or.inl hp
  | fireJob env data => exact Or.inl hp
  | scheduleCmd uid rid task => exact Or.inl hp
  | recurCmd uid rid task => exact Or.inl hp
  | stopCmd uid rid => exact Or.inl hp
  | helpCmd uid rid => exact Or.inl hp
  | nlCmd uid rid raw now => exact Or.inl hp
  | openModalCmd uid => exact Or.inl hp

/-- Environment in which every id resolves, for concrete fire events. -/
def envAll : Env := ⟨fun _ => true, fun _ => true⟩

/-- A concrete stored record, created (like every record) with
`completed := false`. -/
def rec0 : Record := newRecord 7 [ 'k'] [ 't'] ⟨0, 0⟩

/-- **C3, counterexample.** The claim asserts the fire event mutates
the fired record by setting `completed` to true.  In the source,
`reminderProcessor` never touches its `persistence` argument: firing a
job over a store holding user 7's record leaves the store — and the
record's `completed = false` flag — entirely unchanged. -/
theorem c3_counterexample :
    applyStore [(7, rec0)] (Op.fireJob envAll ⟨[ 't'], 7, 5⟩) = [(7, rec0)] ∧
    rec0.completed = false :=
  ⟨rfl, rfl⟩

/-- **C3 (amended).** A persisted ReminderRecord is mutated only by the
explicit clear action, which deletes the owner's records; the fire
event performs no store mutation at all (in particular it never sets
`completed`); every record is created with `completed` false, and no
operation ever changes a record's fields — any record surviving an
operation was already present, and any new record has
`completed = false`, so an all-incomplete store stays all-incomplete. -/
theorem c3_store_mutation :
    (∀ (s : Store) (env : Env) (data : JobData),
      applyStore s (Op.fireJob env data) = s) ∧
    (∀ (s : Store) (op : Op) (p : Nat × Record),
      p ∈ applyStore s op → p ∈ s ∨ p.2.completed = false) ∧
    (∀ (s : Store) (op : Op),
      (∀ p ∈ s, p.2.completed = false) →
      ∀ p ∈ applyStore s op, p.2.completed = false) := by
  refine ⟨fun s env data => rfl, fun s op p hp => applyStore_mem hp, ?_⟩
  intro s op hall p hp
  rcases applyStore_mem hp with h | h
  · exact hall p h
  · exact h

/-- Witness for C3 (amended): a concrete record surviving a concrete
list operation was already present or is freshly created incomplete. -/
theorem c3_store_mutation_witness :
    (7, rec0) ∈ ([(7, rec0)] : Store) ∨ rec0.completed = false :=
  c3_store_mutation.2.1 [(7, rec0)] (Op.listCmd 7) (7, rec0) (by decide)

/-- **C7.** In the natural-language scheduling path: when the resolver
returns no instant, the could-not-understand message is posted and
nothing is scheduled; when it returns an instant not strictly after
`now`, the distinct past-time message is posted and nothing is
scheduled; only for a strictly future instant is `scheduleOnce`
invoked.  The fourth conjunct states globally that a scheduling effect
occurs only when the parse produced a strictly future instant, and the
last that the two failure messages are distinct literals. -/
theorem c7_nl_error_paths :
    ∀ (raw : List Char) (now : DateTime) (senderId roomId : Nat),
      (parseNaturalDate raw now = none →
        nlPath raw now senderId roomId =
          [Effect.message roomId Msg.didNotCatch]) ∧
      (∀ d, parseNaturalDate raw now = some d → toMillis d ≤ toMillis now →
        nlPath raw now senderId roomId =
          [Effect.message roomId Msg.pastTime]) ∧
      (∀ d, parseNaturalDate raw now = some d → toMillis now < toMillis d →
        nlPath raw now senderId roomId =
          [Effect.scheduleOnceAt reminderJobId (toMillis d)
            ⟨raw, senderId, roomId⟩,
           Effect.message roomId (Msg.smartSchedule raw d)]) ∧
      (∀ e ∈ nlPath raw now senderId roomId, isSchedEff e = true →
        ∃ d, parseNaturalDate raw now = some d ∧ toMillis now < toMillis d) ∧
      Msg.didNotCatch ≠ Msg.pastTime := by
  intro raw now senderId roomId
  refine ⟨?_, ?_, ?_, ?_, by decide⟩
  · intro h
    simp [nlPath, h]
  · intro d h hle
    have hnot : ¬ (toMillis d - toMillis now > 0) := by omega
    simp [nlPath, h, hnot]
  · intro d h hlt
    have hpos : toMillis d - toMillis now > 0 := by omega
    simp [nlPath, h, hpos]
  · intro e he hs
    cases hp : parseNaturalDate raw now with
    | none =>
      exfalso
      simp only [nlPath, hp] at he
      simp only [List.mem_singleton] at he
      rw [he] at hs
      cases hs
    | some d =>
      by_cases hc : toMillis d - toMillis now > 0
      · exact ⟨d, rfl, by omega⟩
      · exfalso
        simp only [nlPath, hp, if_neg hc] at he
        simp only [List.mem_singleton] at he
        rw [he] at hs
        cases hs

/-- Witness for C7: an unparseable text produces exactly the
could-not-understand message and no scheduling effect. -/
theorem c7_nl_error_paths_witness :
    nlPath [ 'x'] ⟨0, 0⟩ 1 2 = [Effect.message 2 Msg.didNotCatch] :=
  (c7_nl_error_paths [ 'x'] ⟨0, 0⟩ 1 2).1 (by decide)

/-- **C8.** For every fire event whose payload references an owner or
destination that no longer resolves at fire time, the fire handler
performs zero delivery attempts and surfaces no message to any user:
its effect list is empty.  (The handler is a total function — the
source catches every error internally and never rethrows.) -/
theorem c8_fire_missing_entity :
    ∀ (env : Env) (data : JobData),
      env.userExists data.userId = false ∨
        env.roomExists data.roomId = false →
      reminderProcessor env data = [] := by
  intro env data h
  rcases h with h | h <;> simp [reminderProcessor, h]

/-- Witness for C8: a fire event in an environment where nothing
resolves produces no effects at all. -/
theorem c8_fire_missing_entity_witness :
    reminderProcessor ⟨fun _ => false, fun _ => false⟩ ⟨[ 't'], 1, 2⟩ = [] :=
  c8_fire_missing_entity ⟨fun _ => false, fun _ => false⟩ ⟨[ 't'], 1, 2⟩
    (Or.inl rfl)

/-- **C9.** Cancelling when no matching job exists is reported with the
distinct not-found message (different from the stopped confirmation),
the job list is unchanged — so the cancel causes no fire — and no
scheduling effect is emitted; the host's thrown error is caught inside
`stopPath`, which is a total function, so nothing propagates to the
caller. -/
theorem c9_cancel_absent :
    ∀ (jobs : List (List Char)) (roomId : Nat),
      recurringJobId ∉ jobs →
      stopPath jobs roomId =
        (jobs, [Effect.message roomId Msg.noActiveRecurring]) ∧
      Msg.noActiveRecurring ≠ Msg.stopped ∧
      ∀ e ∈ (stopPath jobs roomId).2, isSchedEff e = false := by
  intro jobs roomId h
  have hc : cancelJobHost jobs recurringJobId = Except.error () := by
    simp [cancelJobHost, h]
  refine ⟨by simp [stopPath, hc], by decide, ?_⟩
  simp [stopPath, hc, isSchedEff]

/-- Witness for C9: cancelling against an empty job list reports the
not-found outcome and leaves the job list empty. -/
theorem c9_cancel_absent_witness :
    stopPath [] 3 = ([], [Effect.message 3 Msg.noActiveRecurring]) :=
  (c9_cancel_absent [] 3 (by simp)).1
